import Mathlib

/-!
Shallow embedding of the split/reassemble/recompress utilities
(src/splitZip.py, src/reassembleZip.py, src/optWebPImages.py).

File contents are modelled as lists of bytes (`List Nat`); filenames as
`String`.  Python numbers that may be either `int` or `float` are modelled
by the tagged type `PyNum` (the float payload is kept as a rational: the
only fact used about floats is that `file.read` rejects them with a
`TypeError`, which depends on the type tag alone, never on the value).
-/

/-- The decimal digit character for `n < 10` (as produced by Python's
decimal formatting). -/
def digitChar (n : Nat) : Char := Char.ofNat (48 + n)

/-- Fuelled decimal rendering of a natural number, most significant digit
first.  The fuel only serves to make the recursion structural; `toDecimal`
below always supplies enough. -/
def toDecimalAux : Nat → Nat → List Char
  | 0, _ => []
  | fuel + 1, n => if n < 10 then [digitChar n] else toDecimalAux fuel (n / 10) ++ [digitChar (n % 10)]

/-- Decimal rendering of a natural number (the digits of Python's `str(n)` /
unpadded `d` formatting). -/
def toDecimal (n : Nat) : List Char := toDecimalAux (n + 1) n

/-- Model of Python's format spec `03d` (splitZip.py line 43): decimal,
left-padded with zeros to a minimum width of 3; wider numbers are rendered
in full. -/
def pad3 (n : Nat) : String :=
  let d := toDecimal n
  String.mk (List.replicate (3 - d.length) '0' ++ d)

/-- Numeric value of a string of decimal digit characters (Python's
`int(text)` on such strings). -/
def digitsToNat (p : List Char) : Nat :=
  p.foldl (fun a c => 10 * a + (c.toNat - 48)) 0

/-- A Python number as it reaches `split_zip_file`'s `f.read` call: either an
`int` or a `float`.  The float payload is its rational value. -/
inductive PyNum
  | int : Int → PyNum
  | float : Rat → PyNum
deriving DecidableEq

/-- Fuelled model of the read loop of splitZip.py lines 36-48: repeatedly
`chunk = f.read(S)`; stop when the chunk is empty.  For a regular binary
file `f.read(S)` with `S ≥ 0` returns the next `min S remaining` bytes.
The fuel (the remaining byte count suffices) only makes the recursion
structural. -/
def chunksF : Nat → Nat → List Nat → List (List Nat)
  | 0, _, _ => []
  | fuel + 1, S, data =>
    let chunk := data.take S
    if chunk.isEmpty then [] else chunk :: chunksF fuel S (data.drop S)

/-- The chunks read by the loop of splitZip.py lines 36-48 for an integer
`max_part_size` a buffered `f.read` accepts (that is, `i ≥ -1`; smaller
negative sizes raise `ValueError` and are short-circuited by
`split_zip_file` below before this loop is modelled).  `f.read(-1)` reads
the whole rest of the file, so the loop produces a single chunk holding
everything unless the file is empty; with `i ≥ 0` it reads at most `i`
bytes per call. -/
def readChunks (i : Int) (data : List Nat) : List (List Nat) :=
  if i < 0 then (if data.isEmpty then [] else [data])
  else chunksF data.length i.toNat data

/-- Model of `split_zip_file` (splitZip.py lines 14-58), minus the
filesystem preconditions (existing readable input, writable directory),
which are outside the byte-level model.  Returns the function's return
value together with the list of part files written, as
(filename, contents) pairs in creation order.  Part `part_num` is named
`<stem>.zip.<part_num:03d>` with `part_num` starting at 1 (lines 35-48).
When `max_part_size` is a float, the first `f.read(max_part_size)` raises
`TypeError: 'float' object cannot be interpreted as an integer`; when it
is an integer smaller than -1, the first buffered `f.read` raises
`ValueError: read length must be non-negative or -1`.  In both cases the
handler at line 56 catches the exception before any part is written and
the function returns `False`. -/
def split_zip_file (stem : String) (maxPartSize : PyNum) (src : List Nat) :
    Bool × List (String × List Nat) :=
  match maxPartSize with
  | .float _ => (false, [])
  | .int i =>
    if i < -1 then (false, [])
    else (true, (readChunks i src).enum.map (fun p => (stem ++ r".zip." ++ pad3 (p.1 + 1), p.2)))

/-- Model of splitZip.py line 119: the default part size used when the user
just presses enter at the size prompt — the Python `int` `1024*1024*1024`. -/
def defaultMaxSize : PyNum := .int (1024 * 1024 * 1024)

/-- Model of splitZip.py line 122, `max_size = float(size_input) * 1024**3`,
for a typed (non-empty) size entry: `float()` returns a Python `float` and
`float * int` is again a `float`, so whatever numeric value `x` the typed
string parses to, `split_zip_file` receives a float. -/
def typedMaxSize (x : Rat) : PyNum := .float (x * (1024 * 1024 * 1024))

/-- Model of splitZip.py lines 122-125: a typed size is accepted only when
`max_size = float(size_input) * 1024**3` is strictly positive; otherwise a
`ValueError` is raised and the prompt loop repeats (`none`). -/
def acceptTypedSize (x : Rat) : Option PyNum :=
  if x * (1024 * 1024 * 1024) ≤ 0 then none else some (typedMaxSize x)

-- Basic facts about the fuelled chunk reader.

theorem chunksF_nil (fuel S : Nat) : chunksF fuel S [] = [] := by
  cases fuel <;> simp [chunksF]

theorem chunksF_fuel_irrel (f₁ : Nat) : ∀ (f₂ S : Nat) (data : List Nat),
    0 < S → data.length ≤ f₁ → data.length ≤ f₂ → chunksF f₁ S data = chunksF f₂ S data := by
  induction f₁ with
  | zero =>
    intro f₂ S data _ h1 _
    have : data = [] := List.length_eq_zero.mp (Nat.le_zero.mp h1)
    subst this
    simp [chunksF_nil]
  | succ f ih =>
    intro f₂ S data hS h1 h2
    cases data with
    | nil => simp [chunksF_nil]
    | cons d t =>
      cases f₂ with
      | zero =>
        have hc : (d :: t).length = t.length + 1 := List.length_cons d t
        omega
      | succ f₂' =>
        have hne : ((d :: t).take S).isEmpty = false := by
          cases S with
          | zero => omega
          | succ s => simp [List.take]
        simp only [chunksF, hne, Bool.false_eq_true, if_false]
        have hd := List.length_drop S (d :: t)
        have hc : (d :: t).length = t.length + 1 := List.length_cons d t
        have hlen : ((d :: t).drop S).length ≤ f := by omega
        have hlen2 : ((d :: t).drop S).length ≤ f₂' := by omega
        rw [ih f₂' S _ hS hlen hlen2]

/-- Unfolding rule for the read loop at a positive integer part size. -/
theorem readChunks_unfold (S : Nat) (hS : 0 < S) (data : List Nat) :
    readChunks (S : Int) data =
      if data.isEmpty then [] else data.take S :: readChunks (S : Int) (data.drop S) := by
  have hnn : ¬ ((S : Int) < 0) := by omega
  cases data with
  | nil => simp [readChunks, hnn, chunksF_nil]
  | cons d t =>
    simp only [readChunks, hnn, if_false, List.isEmpty_cons]
    have hne : ((d :: t).take S).isEmpty = false := by
      cases S with
      | zero => omega
      | succ s => simp [List.take]
    have hlen : (d :: t).length = (d :: t).length - 1 + 1 := by simp
    rw [hlen]
    simp only [chunksF, hne, Bool.false_eq_true, if_false, Int.toNat_ofNat]
    congr 1
    have hd := List.length_drop S (d :: t)
    have hc : (d :: t).length = t.length + 1 := List.length_cons d t
    exact chunksF_fuel_irrel _ _ _ _ hS (by omega) (by omega)

theorem readChunks_nil (i : Int) : readChunks i [] = [] := by
  unfold readChunks
  split <;> simp [chunksF_nil]

theorem readChunks_flatten_aux (S : Nat) (hS : 0 < S) :
    ∀ (n : Nat) (data : List Nat), data.length ≤ n →
      (readChunks (S : Int) data).flatten = data := by
  intro n
  induction n with
  | zero =>
    intro data h
    have : data = [] := List.length_eq_zero.mp (Nat.le_zero.mp h)
    subst this
    simp [readChunks_nil]
  | succ n ih =>
    intro data h
    rw [readChunks_unfold S hS]
    cases data with
    | nil => simp
    | cons d t =>
      simp only [List.isEmpty_cons, Bool.false_eq_true, if_false, List.flatten_cons]
      have hd := List.length_drop S (d :: t)
      have hc : (d :: t).length = t.length + 1 := List.length_cons d t
      rw [ih ((d :: t).drop S) (by omega)]
      exact List.take_append_drop S (d :: t)

/-- The chunks written by the split loop concatenate back to the source
file, byte for byte. -/
theorem readChunks_flatten (S : Nat) (hS : 0 < S) (data : List Nat) :
    (readChunks (S : Int) data).flatten = data :=
  readChunks_flatten_aux S hS data.length data (le_refl _)

theorem ceil_div_succ (L S : Nat) (hS : 0 < S) (hL : 0 < L) :
    (L + S - 1) / S = ((L - S) + S - 1) / S + 1 := by
  rcases le_or_lt L S with hle | hlt
  · have h1 : L + S - 1 = (L - 1) + S := by omega
    have h2 : L - S = 0 := by omega
    rw [h1, Nat.add_div_right _ hS, Nat.div_eq_of_lt (by omega), h2]
    rw [Nat.div_eq_of_lt (by omega)]
  · have h1 : L + S - 1 = ((L - S) + S - 1) + S := by omega
    rw [h1, Nat.add_div_right _ hS]

theorem readChunks_length_aux (S : Nat) (hS : 0 < S) :
    ∀ (n : Nat) (data : List Nat), data.length ≤ n →
      (readChunks (S : Int) data).length = (data.length + S - 1) / S := by
  intro n
  induction n with
  | zero =>
    intro data h
    have : data = [] := List.length_eq_zero.mp (Nat.le_zero.mp h)
    subst this
    simp [readChunks_nil, Nat.div_eq_of_lt (by omega : S - 1 < S)]
  | succ n ih =>
    intro data h
    rw [readChunks_unfold S hS]
    cases data with
    | nil => simp [Nat.div_eq_of_lt (by omega : S - 1 < S)]
    | cons d t =>
      simp only [List.isEmpty_cons, Bool.false_eq_true, if_false, List.length_cons]
      have hd := List.length_drop S (d :: t)
      have hc : (d :: t).length = t.length + 1 := List.length_cons d t
      rw [ih ((d :: t).drop S) (by omega)]
      have hdd : (List.drop S (d :: t)).length = t.length + 1 - S := by omega
      rw [hdd, ceil_div_succ (t.length + 1) S hS (by omega)]

/-- The split loop produces exactly `ceil(L / S)` chunks. -/
theorem readChunks_length (S : Nat) (hS : 0 < S) (data : List Nat) :
    (readChunks (S : Int) data).length = (data.length + S - 1) / S :=
  readChunks_length_aux S hS data.length data (le_refl _)

theorem readChunks_map_length_aux (S : Nat) (hS : 0 < S) :
    ∀ (n : Nat) (data : List Nat), data.length ≤ n →
      (readChunks (S : Int) data).map List.length =
        (List.range (readChunks (S : Int) data).length).map
          (fun i => min S (data.length - S * i)) := by
  intro n
  induction n with
  | zero =>
    intro data h
    have : data = [] := List.length_eq_zero.mp (Nat.le_zero.mp h)
    subst this
    simp [readChunks_nil]
  | succ n ih =>
    intro data h
    rw [readChunks_unfold S hS]
    cases data with
    | nil => simp
    | cons d t =>
      simp only [List.isEmpty_cons, Bool.false_eq_true, if_false, List.map_cons,
        List.length_cons]
      have hd := List.length_drop S (d :: t)
      have hc : (d :: t).length = t.length + 1 := List.length_cons d t
      rw [List.range_succ_eq_map, List.map_cons, List.map_map]
      congr 1
      · rw [List.length_take]
        omega
      · rw [ih ((d :: t).drop S) (by omega), hd]
        apply List.map_congr_left
        intro i _
        simp only [Function.comp_apply, Nat.succ_eq_add_one]
        have hmul : S * (i + 1) = S * i + S := by ring
        generalize S * i = m at hmul ⊢
        omega

/-- Chunk `i` (0-based) of the split has exactly `min S (L - S*i)` bytes. -/
theorem readChunks_map_length (S : Nat) (hS : 0 < S) (data : List Nat) :
    (readChunks (S : Int) data).map List.length =
      (List.range (readChunks (S : Int) data).length).map
        (fun i => min S (data.length - S * i)) :=
  readChunks_map_length_aux S hS data.length data (le_refl _)

/-- On a non-empty source the split loop writes at least one part. -/
theorem readChunks_ne_nil (S : Nat) (hS : 0 < S) (data : List Nat) (h : data ≠ []) :
    readChunks (S : Int) data ≠ [] := by
  rw [readChunks_unfold S hS]
  cases data with
  | nil => exact absurd rfl h
  | cons d t => simp

theorem readChunks_pos_aux (S : Nat) (hS : 0 < S) :
    ∀ (n : Nat) (data : List Nat), data.length ≤ n →
      ∀ c ∈ readChunks (S : Int) data, 0 < c.length := by
  intro n
  induction n with
  | zero =>
    intro data h
    have : data = [] := List.length_eq_zero.mp (Nat.le_zero.mp h)
    subst this
    simp [readChunks_nil]
  | succ n ih =>
    intro data h
    rw [readChunks_unfold S hS]
    cases data with
    | nil => simp
    | cons d t =>
      simp only [List.isEmpty_cons, Bool.false_eq_true, if_false, List.mem_cons]
      intro c hc
      rcases hc with hc | hc
      · subst hc
        rw [List.length_take]
        have : (d :: t).length = t.length + 1 := List.length_cons d t
        omega
      · have hd := List.length_drop S (d :: t)
        have hcc : (d :: t).length = t.length + 1 := List.length_cons d t
        exact ih ((d :: t).drop S) (by omega) c hc

/-- No chunk written by the split loop is empty (no zero-length part,
in particular no trailing zero-length part). -/
theorem readChunks_pos (S : Nat) (hS : 0 < S) (data : List Nat) :
    ∀ c ∈ readChunks (S : Int) data, 0 < c.length :=
  readChunks_pos_aux S hS data.length data (le_refl _)

theorem readChunks_dropLast_aux (S : Nat) (hS : 0 < S) :
    ∀ (n : Nat) (data : List Nat), data.length ≤ n →
      ∀ c ∈ (readChunks (S : Int) data).dropLast, c.length = S := by
  intro n
  induction n with
  | zero =>
    intro data h
    have : data = [] := List.length_eq_zero.mp (Nat.le_zero.mp h)
    subst this
    simp [readChunks_nil]
  | succ n ih =>
    intro data h
    rw [readChunks_unfold S hS]
    cases data with
    | nil => simp
    | cons d t =>
      simp only [List.isEmpty_cons, Bool.false_eq_true, if_false]
      have hd := List.length_drop S (d :: t)
      have hcc : (d :: t).length = t.length + 1 := List.length_cons d t
      rcases heq : readChunks (S : Int) ((d :: t).drop S) with _ | ⟨r, rs⟩
      · simp
      · rw [List.dropLast_cons₂]
        intro c hc
        rcases List.mem_cons.mp hc with hc | hc
        · subst hc
          rw [List.length_take]
          have hdrop : (d :: t).drop S ≠ [] := by
            intro hnil
            rw [hnil, readChunks_nil] at heq
            exact List.cons_ne_nil r rs heq.symm
          have : 0 < ((d :: t).drop S).length := List.length_pos.mpr hdrop
          omega
        · rw [← heq] at hc
          exact ih ((d :: t).drop S) (by omega) c hc

/-- Every chunk except possibly the last has exactly `S` bytes. -/
theorem readChunks_dropLast (S : Nat) (hS : 0 < S) (data : List Nat) :
    ∀ c ∈ (readChunks (S : Int) data).dropLast, c.length = S :=
  readChunks_dropLast_aux S hS data.length data (le_refl _)

theorem readChunks_dvd_aux (S : Nat) (hS : 0 < S) :
    ∀ (n : Nat) (data : List Nat), data.length ≤ n → S ∣ data.length →
      ∀ c ∈ readChunks (S : Int) data, c.length = S := by
  intro n
  induction n with
  | zero =>
    intro data h _
    have : data = [] := List.length_eq_zero.mp (Nat.le_zero.mp h)
    subst this
    simp [readChunks_nil]
  | succ n ih =>
    intro data h hdvd
    rw [readChunks_unfold S hS]
    cases data with
    | nil => simp
    | cons d t =>
      simp only [List.isEmpty_cons, Bool.false_eq_true, if_false, List.mem_cons]
      have hd := List.length_drop S (d :: t)
      have hcc : (d :: t).length = t.length + 1 := List.length_cons d t
      have hge : S ≤ (d :: t).length := by
        rcases hdvd with ⟨m, hm⟩
        rcases m with _ | m
        · omega
        · have : S * (m + 1) = S * m + S := by ring
          omega
      intro c hc
      rcases hc with hc | hc
      · subst hc
        rw [List.length_take]
        omega
      · have hdvd2 : S ∣ ((d :: t).drop S).length := by
          rcases hdvd with ⟨m, hm⟩
          rcases m with _ | m
          · omega
          · refine ⟨m, ?_⟩
            have : S * (m + 1) = S * m + S := by ring
            omega
        exact ih ((d :: t).drop S) (by omega) hdvd2 c hc

/-- When the source length is an exact multiple of `S`, every chunk has
exactly `S` bytes. -/
theorem readChunks_dvd (S : Nat) (hS : 0 < S) (data : List Nat) (h : S ∣ data.length) :
    ∀ c ∈ readChunks (S : Int) data, c.length = S :=
  readChunks_dvd_aux S hS data.length data (le_refl _) h

/-!
Natural sort (reassembleZip.py lines 5-8).

`natural_sort_key` splits a filename into alternating runs of digits and
non-digits (Python's `re.split` with pattern group `([0-9]+)`), mapping
digit runs to their numeric value and other runs to their lowercased text.
Keys (Python lists) are compared lexicographically; Python's `sorted`
orders by the strict `<` of the keys and is stable.
-/

/-- Lexicographic strict comparison of lists, given a strict comparison of
elements — the order Python uses on lists. -/
def lexLtBy {α : Type} (ltA : α → α → Bool) [BEq α] : List α → List α → Bool
  | [], [] => false
  | [], _ :: _ => true
  | _ :: _, [] => false
  | a :: as, b :: bs => ltA a b || (a == b && lexLtBy ltA as bs)

theorem lexLtBy_irrefl {α : Type} (ltA : α → α → Bool) [BEq α] [LawfulBEq α]
    (hirr : ∀ a, ltA a a = false) : ∀ l, lexLtBy ltA l l = false := by
  intro l
  induction l with
  | nil => rfl
  | cons a as ih => simp [lexLtBy, hirr, ih]

theorem lexLtBy_trans {α : Type} (ltA : α → α → Bool) [BEq α] [LawfulBEq α]
    (htr : ∀ a b c, ltA a b = true → ltA b c = true → ltA a c = true) :
    ∀ l₁ l₂ l₃, lexLtBy ltA l₁ l₂ = true → lexLtBy ltA l₂ l₃ = true →
      lexLtBy ltA l₁ l₃ = true := by
  intro l₁
  induction l₁ with
  | nil =>
    intro l₂ l₃ h12 h23
    cases l₂ with
    | nil => exact h23
    | cons b bs =>
      cases l₃ with
      | nil => exact absurd h23 (by simp [lexLtBy])
      | cons c cs => rfl
  | cons a as ih =>
    intro l₂ l₃ h12 h23
    cases l₂ with
    | nil => exact absurd h12 (by simp [lexLtBy])
    | cons b bs =>
      cases l₃ with
      | nil => exact absurd h23 (by simp [lexLtBy])
      | cons c cs =>
        simp only [lexLtBy, Bool.or_eq_true, Bool.and_eq_true, beq_iff_eq] at h12 h23 ⊢
        rcases h12 with h12 | ⟨hab, h12⟩
        · rcases h23 with h23 | ⟨hbc, h23⟩
          · exact Or.inl (htr a b c h12 h23)
          · subst hbc
            exact Or.inl h12
        · subst hab
          rcases h23 with h23 | ⟨hbc, h23⟩
          · exact Or.inl h23
          · subst hbc
            exact Or.inr ⟨rfl, ih bs cs h12 h23⟩

theorem lexLtBy_tri {α : Type} (ltA : α → α → Bool) [BEq α] [LawfulBEq α]
    (htri : ∀ a b, ltA a b = true ∨ a = b ∨ ltA b a = true) :
    ∀ l₁ l₂, lexLtBy ltA l₁ l₂ = true ∨ l₁ = l₂ ∨ lexLtBy ltA l₂ l₁ = true := by
  intro l₁
  induction l₁ with
  | nil =>
    intro l₂
    cases l₂ with
    | nil => exact Or.inr (Or.inl rfl)
    | cons b bs => exact Or.inl rfl
  | cons a as ih =>
    intro l₂
    cases l₂ with
    | nil => exact Or.inr (Or.inr rfl)
    | cons b bs =>
      rcases htri a b with hab | hab | hab
      · exact Or.inl (by simp [lexLtBy, hab])
      · subst hab
        rcases ih bs with h | h | h
        · exact Or.inl (by simp [lexLtBy, h])
        · subst h
          exact Or.inr (Or.inl rfl)
        · exact Or.inr (Or.inr (by simp [lexLtBy, h]))
      · exact Or.inr (Or.inr (by simp [lexLtBy, hab]))

/-- Strict comparison of characters by code point (Python string
comparison compares code points). -/
def charLt (a b : Char) : Bool := decide (a < b)

theorem charLt_irrefl (a : Char) : charLt a a = false := by
  simp [charLt]

theorem charLt_trans (a b c : Char) (h1 : charLt a b = true) (h2 : charLt b c = true) :
    charLt a c = true := by
  simp only [charLt, decide_eq_true_eq] at h1 h2 ⊢
  exact lt_trans h1 h2

theorem charLt_tri (a b : Char) : charLt a b = true ∨ a = b ∨ charLt b a = true := by
  simp only [charLt, decide_eq_true_eq]
  exact lt_trichotomy a b

/-- One element of a natural-sort key: a numeric run's value, or a
lowercased textual run. -/
inductive NPiece
  | str : List Char → NPiece
  | num : Nat → NPiece
deriving DecidableEq

/-- Strict comparison of key elements.  Python compares two ints
numerically and two strings lexicographically; comparing an int to a str
raises `TypeError`, a case that never arises between the keys compared in
this development (the filename sets at issue always present same-shaped
keys) — the cross cases below are an arbitrary totalisation. -/
def pieceLt : NPiece → NPiece → Bool
  | .str a, .str b => lexLtBy charLt a b
  | .num a, .num b => decide (a < b)
  | .num _, .str _ => true
  | .str _, .num _ => false

theorem pieceLt_irrefl (a : NPiece) : pieceLt a a = false := by
  cases a with
  | str s => simpa [pieceLt] using lexLtBy_irrefl charLt charLt_irrefl s
  | num n => simp [pieceLt]

theorem pieceLt_trans (a b c : NPiece) (h1 : pieceLt a b = true) (h2 : pieceLt b c = true) :
    pieceLt a c = true := by
  cases a with
  | str sa =>
    cases b with
    | str sb =>
      cases c with
      | str sc => exact lexLtBy_trans charLt charLt_trans sa sb sc h1 h2
      | num nc => exact absurd h2 (by simp [pieceLt])
    | num nb => exact absurd h1 (by simp [pieceLt])
  | num na =>
    cases b with
    | str sb =>
      cases c with
      | str sc => rfl
      | num nc => exact absurd h2 (by simp [pieceLt])
    | num nb =>
      cases c with
      | str sc => rfl
      | num nc =>
        simp only [pieceLt, decide_eq_true_eq] at h1 h2 ⊢
        omega

theorem pieceLt_tri (a b : NPiece) : pieceLt a b = true ∨ a = b ∨ pieceLt b a = true := by
  cases a with
  | str sa =>
    cases b with
    | str sb =>
      rcases lexLtBy_tri charLt charLt_tri sa sb with h | h | h
      · exact Or.inl (by simpa [pieceLt] using h)
      · subst h
        exact Or.inr (Or.inl rfl)
      · exact Or.inr (Or.inr (by simpa [pieceLt] using h))
    | num nb => exact Or.inr (Or.inr rfl)
  | num na =>
    cases b with
    | str sb => exact Or.inl rfl
    | num nb =>
      rcases Nat.lt_trichotomy na nb with h | h | h
      · exact Or.inl (by simp [pieceLt, h])
      · subst h
        exact Or.inr (Or.inl rfl)
      · exact Or.inr (Or.inr (by simp [pieceLt, h]))

/-- Strict lexicographic comparison of natural-sort keys (Python's `<` on
the key lists). -/
def keyLt (k₁ k₂ : List NPiece) : Bool := lexLtBy pieceLt k₁ k₂

/-- Non-strict key comparison: Python's stable sort keeps `a` no later
than `b` exactly when `not (key b < key a)`. -/
def keyLe (k₁ k₂ : List NPiece) : Bool := !keyLt k₂ k₁

theorem keyLt_irrefl (k : List NPiece) : keyLt k k = false :=
  lexLtBy_irrefl pieceLt pieceLt_irrefl k

theorem keyLt_trans (k₁ k₂ k₃ : List NPiece) (h1 : keyLt k₁ k₂ = true)
    (h2 : keyLt k₂ k₃ = true) : keyLt k₁ k₃ = true :=
  lexLtBy_trans pieceLt pieceLt_trans k₁ k₂ k₃ h1 h2

theorem keyLt_tri (k₁ k₂ : List NPiece) :
    keyLt k₁ k₂ = true ∨ k₁ = k₂ ∨ keyLt k₂ k₁ = true :=
  lexLtBy_tri pieceLt pieceLt_tri k₁ k₂

theorem keyLt_asymm (k₁ k₂ : List NPiece) (h : keyLt k₁ k₂ = true) :
    keyLt k₂ k₁ = false := by
  by_contra hc
  have h2 : keyLt k₂ k₁ = true := by
    cases hh : keyLt k₂ k₁ with
    | false => exact absurd hh hc
    | true => rfl
  have := keyLt_trans k₁ k₂ k₁ h h2
  rw [keyLt_irrefl] at this
  exact Bool.false_ne_true this

/-- Model of `re.split` with the capturing pattern `([0-9]+)` on a list of
characters: the string is cut into alternating runs of non-digits and
digits; the non-digit pieces between, before and after digit runs are kept
even when empty, so the result always starts and ends with a (possibly
empty) non-digit piece and digit runs sit at the odd positions. -/
def reSplitDigits : List Char → List (List Char)
  | [] => [[]]
  | c :: cs =>
    if c.isDigit then
      match reSplitDigits cs with
      | [] :: d :: rest => [] :: (c :: d) :: rest
      | ps => [] :: [c] :: ps
    else
      match reSplitDigits cs with
      | p :: rest => (c :: p) :: rest
      | [] => [[c]]

theorem reSplitDigits_ne_nil (s : List Char) : reSplitDigits s ≠ [] := by
  cases s with
  | nil => simp [reSplitDigits]
  | cons c cs =>
    simp only [reSplitDigits]
    split
    · split <;> simp
    · split <;> simp

/-- On a string that starts with a digit, the split starts with an empty
piece followed by a non-empty digit run. -/
theorem reSplitDigits_digit_head (c : Char) (cs : List Char) (h : c.isDigit = true) :
    ∃ d rest, reSplitDigits (c :: cs) = [] :: d :: rest ∧ d ≠ [] := by
  simp only [reSplitDigits, h, if_true]
  split
  · exact ⟨_, _, rfl, by simp⟩
  · exact ⟨_, _, rfl, by simp⟩

/-- On a string that starts with a non-digit, the split starts with a piece
starting with that character. -/
theorem reSplitDigits_nondigit_head (c : Char) (cs : List Char) (h : c.isDigit = false) :
    ∃ p rest, reSplitDigits (c :: cs) = (c :: p) :: rest := by
  simp only [reSplitDigits, h, Bool.false_eq_true, if_false]
  rcases hrs : reSplitDigits cs with _ | ⟨p, rest⟩
  · exact absurd hrs (reSplitDigits_ne_nil cs)
  · exact ⟨p, rest, rfl⟩

/-- Splitting an all-digit, non-empty string gives an empty piece, the
whole string as one digit run, and a final empty piece. -/
theorem reSplitDigits_all_digits : ∀ (ds : List Char), ds ≠ [] →
    ds.all Char.isDigit = true → reSplitDigits ds = [[], ds, []] := by
  intro ds
  induction ds with
  | nil => intro h; exact absurd rfl h
  | cons d t ih =>
    intro _ hall
    simp only [List.all_cons, Bool.and_eq_true] at hall
    cases t with
    | nil => simp [reSplitDigits, hall.1]
    | cons d2 t2 =>
      rw [show reSplitDigits (d :: d2 :: t2) =
        (if d.isDigit then
          match reSplitDigits (d2 :: t2) with
          | [] :: dd :: rest => [] :: (d :: dd) :: rest
          | ps => [] :: [d] :: ps
        else
          match reSplitDigits (d2 :: t2) with
          | p :: rest => (d :: p) :: rest
          | [] => [[d]]) from rfl]
      rw [ih (by simp) hall.2]
      simp [hall.1]

/-- One-step unfolding of `reSplitDigits` on a cons cell. -/
theorem reSplitDigits_cons (c : Char) (cs : List Char) :
    reSplitDigits (c :: cs) =
      if c.isDigit then
        match reSplitDigits cs with
        | [] :: d :: rest => [] :: (c :: d) :: rest
        | ps => [] :: [c] :: ps
      else
        match reSplitDigits cs with
        | p :: rest => (c :: p) :: rest
        | [] => [[c]] := rfl

/-- Appending a non-empty all-digit run to a string that ends in a
non-digit extends its split with exactly two pieces: the digit run, and a
final empty piece. -/
theorem reSplitDigits_append_digits : ∀ (P : List Char), P ≠ [] →
    P.getLast?.any (fun c => !c.isDigit) = true →
    ∀ ds, ds ≠ [] → ds.all Char.isDigit = true →
    reSplitDigits (P ++ ds) = reSplitDigits P ++ [ds, []] := by
  intro P
  induction P with
  | nil => intro h; exact absurd rfl h
  | cons c P' ih =>
    intro _ hlast ds hds hall
    cases P' with
    | nil =>
      simp only [List.getLast?_singleton, Option.any_some] at hlast
      have hc : c.isDigit = false := by
        cases h : c.isDigit
        · rfl
        · rw [h] at hlast
          exact absurd hlast (by simp)
      simp only [List.singleton_append, List.cons_append, List.nil_append]
      rw [reSplitDigits_cons, hc]
      rw [reSplitDigits_all_digits ds hds hall]
      simp [reSplitDigits, hc]
    | cons c2 P'' =>
      have hlast2 : (c2 :: P'').getLast?.any (fun c => !c.isDigit) = true := by
        rwa [List.getLast?_cons_cons] at hlast
      have ihq := ih (by simp) hlast2 ds hds hall
      have hcons : (c :: c2 :: P'') ++ ds = c :: ((c2 :: P'') ++ ds) := by simp
      rw [hcons, reSplitDigits_cons c ((c2 :: P'') ++ ds), reSplitDigits_cons c (c2 :: P''),
        ihq]
      rcases hq : reSplitDigits (c2 :: P'') with _ | ⟨p, qrest⟩
      · exact absurd hq (reSplitDigits_ne_nil _)
      · cases hc : c.isDigit with
        | true =>
          simp only [if_true]
          cases p with
          | nil =>
            cases qrest with
            | nil =>
              exfalso
              cases hc2 : c2.isDigit with
              | true =>
                rcases reSplitDigits_digit_head c2 P'' hc2 with ⟨d, rest, heq, _⟩
                rw [hq] at heq
                simp at heq
              | false =>
                rcases reSplitDigits_nondigit_head c2 P'' hc2 with ⟨pp, rest, heq⟩
                rw [hq] at heq
                simp at heq
            | cons d rest => simp
          | cons pc pt => simp
        | false =>
          simp only [Bool.false_eq_true, if_false]
          simp

-- Decimal rendering: fuel irrelevance, digit content, and value round-trip.

theorem toDecimalAux_fuel_irrel : ∀ (f₁ f₂ n : Nat), n < f₁ → n < f₂ →
    toDecimalAux f₁ n = toDecimalAux f₂ n := by
  intro f₁
  induction f₁ with
  | zero => intro f₂ n h; omega
  | succ f ih =>
    intro f₂ n h1 h2
    cases f₂ with
    | zero => omega
    | succ f₂' =>
      simp only [toDecimalAux]
      rcases lt_or_le n 10 with hlt | hge
      · simp [hlt]
      · have hne : ¬ n < 10 := by omega
        simp only [hne, if_false]
        have hd : n / 10 < n := Nat.div_lt_self (by omega) (by omega)
        rw [ih f₂' (n / 10) (by omega) (by omega)]

theorem toDecimal_unfold (n : Nat) :
    toDecimal n = if n < 10 then [digitChar n]
      else toDecimal (n / 10) ++ [digitChar (n % 10)] := by
  show toDecimalAux (n + 1) n = _
  rcases lt_or_le n 10 with hlt | hge
  · simp [toDecimalAux, hlt]
  · have hne : ¬ n < 10 := by omega
    simp only [toDecimalAux, hne, if_false]
    have hd : n / 10 < n := Nat.div_lt_self (by omega) (by omega)
    rw [toDecimalAux_fuel_irrel n (n / 10 + 1) (n / 10) (by omega) (by omega)]
    rfl

theorem digitChar_isDigit (k : Nat) (h : k < 10) : (digitChar k).isDigit = true := by
  unfold digitChar
  interval_cases k <;> decide

theorem digitChar_toNat (k : Nat) (h : k < 10) : (digitChar k).toNat = 48 + k := by
  unfold digitChar
  interval_cases k <;> decide

theorem toDecimal_facts : ∀ (f n : Nat), n < f →
    toDecimal n ≠ [] ∧ (toDecimal n).all Char.isDigit = true ∧
      digitsToNat (toDecimal n) = n := by
  intro f
  induction f with
  | zero => intro n h; omega
  | succ f ih =>
    intro n h
    rw [toDecimal_unfold n]
    rcases lt_or_le n 10 with hlt | hge
    · simp only [hlt, if_true]
      refine ⟨by simp, by simp [digitChar_isDigit n hlt], ?_⟩
      simp [digitsToNat, digitChar_toNat n hlt]
    · have hne : ¬ n < 10 := by omega
      simp only [hne, if_false]
      have hd : n / 10 < n := Nat.div_lt_self (by omega) (by omega)
      obtain ⟨h1, h2, h3⟩ := ih (n / 10) (by omega)
      refine ⟨by simp, ?_, ?_⟩
      · rw [List.all_append, h2]
        simp [digitChar_isDigit (n % 10) (Nat.mod_lt n (by omega))]
      · unfold digitsToNat at h3 ⊢
        rw [List.foldl_append, h3]
        simp only [List.foldl_cons, List.foldl_nil]
        rw [digitChar_toNat (n % 10) (Nat.mod_lt n (by omega))]
        have := Nat.div_add_mod n 10
        omega

theorem toDecimal_ne_nil (n : Nat) : toDecimal n ≠ [] :=
  (toDecimal_facts (n + 1) n (by omega)).1

theorem toDecimal_all_digits (n : Nat) : (toDecimal n).all Char.isDigit = true :=
  (toDecimal_facts (n + 1) n (by omega)).2.1

theorem digitsToNat_toDecimal (n : Nat) : digitsToNat (toDecimal n) = n :=
  (toDecimal_facts (n + 1) n (by omega)).2.2

theorem pad3_data (n : Nat) :
    (pad3 n).data = List.replicate (3 - (toDecimal n).length) '0' ++ toDecimal n := rfl

theorem digitsToNat_replicate_zero (k : Nat) (xs : List Char) :
    digitsToNat (List.replicate k '0' ++ xs) = digitsToNat xs := by
  unfold digitsToNat
  rw [List.foldl_append]
  have : List.foldl (fun a c => 10 * a + (c.toNat - 48)) 0 (List.replicate k '0') = 0 := by
    induction k with
    | zero => rfl
    | succ m ihm => simpa [List.replicate_succ] using ihm
  rw [this]

theorem pad3_ne_nil (n : Nat) : (pad3 n).data ≠ [] := by
  rw [pad3_data]
  simp [toDecimal_ne_nil n]

theorem pad3_all_digits (n : Nat) : (pad3 n).data.all Char.isDigit = true := by
  rw [pad3_data, List.all_append]
  have h0 : (List.replicate (3 - (toDecimal n).length) '0').all Char.isDigit = true := by
    rw [List.all_eq_true]
    intro c hc
    rw [List.eq_of_mem_replicate hc]
    decide
  rw [h0, toDecimal_all_digits n]
  rfl

theorem digitsToNat_pad3 (n : Nat) : digitsToNat (pad3 n).data = n := by
  rw [pad3_data, digitsToNat_replicate_zero, digitsToNat_toDecimal]

theorem pad3_length (n : Nat) : (pad3 n).data.length = max 3 (toDecimal n).length := by
  rw [pad3_data, List.length_append, List.length_replicate]
  omega

theorem pad3_length_ge (n : Nat) : 3 ≤ (pad3 n).data.length := by
  rw [pad3_length]
  omega

-- Length of the decimal rendering against powers of ten (for the
-- 3-digit / 4-digit padding boundary at 999 / 1000).

theorem toDecimal_length_le : ∀ (k n : Nat), 1 ≤ k → n < 10 ^ k →
    (toDecimal n).length ≤ k := by
  intro k
  induction k with
  | zero => intro n h; omega
  | succ k ih =>
    intro n _ hn
    rw [toDecimal_unfold n]
    rcases lt_or_le n 10 with hlt | hge
    · simp [hlt]
    · have hne : ¬ n < 10 := by omega
      simp only [hne, if_false, List.length_append, List.length_cons, List.length_nil]
      have hk : 1 ≤ k := by
        by_contra hk0
        have : k = 0 := by omega
        subst this
        simp [pow_succ] at hn
        omega
      have : n / 10 < 10 ^ k := by
        rw [Nat.div_lt_iff_lt_mul (by omega)]
        calc n < 10 ^ (k + 1) := hn
        _ = 10 ^ k * 10 := by ring
      have := ih (n / 10) hk this
      omega

theorem toDecimal_length_ge : ∀ (k n : Nat), 10 ^ k ≤ n →
    k + 1 ≤ (toDecimal n).length := by
  intro k
  induction k with
  | zero =>
    intro n _
    rw [toDecimal_unfold n]
    rcases lt_or_le n 10 with hlt | hge
    · simp [hlt]
    · have hne : ¬ n < 10 := by omega
      simp only [hne, if_false, List.length_append, List.length_cons, List.length_nil]
      omega
  | succ k ih =>
    intro n hn
    have hge : ¬ n < 10 := by
      have : 10 ≤ 10 ^ (k + 1) := by
        calc (10 : Nat) = 10 ^ 1 := by ring
        _ ≤ 10 ^ (k + 1) := Nat.pow_le_pow_right (by omega) (by omega)
      omega
    rw [toDecimal_unfold n]
    simp only [hge, if_false, List.length_append, List.length_cons, List.length_nil]
    have hdiv : 10 ^ k ≤ n / 10 := by
      rw [Nat.le_div_iff_mul_le (by omega)]
      calc 10 ^ k * 10 = 10 ^ (k + 1) := by ring
      _ ≤ n := hn
    have := ih (n / 10) hdiv
    omega

/-- ASCII lowercasing of one character (the effect of Python's
`str.lower()` on the ASCII filenames considered here). -/
def lowerChar (c : Char) : Char :=
  if 'A' ≤ c ∧ c ≤ 'Z' then Char.ofNat (c.toNat + 32) else c

/-- The key element computed for one `re.split` piece
(reassembleZip.py line 7): `int(text) if text.isdigit() else text.lower()`.
Python's `isdigit` is true exactly on non-empty all-digit strings (for the
ASCII range the pattern `[0-9]` produces). -/
def pieceOf (p : List Char) : NPiece :=
  if p ≠ [] ∧ p.all Char.isDigit = true then .num (digitsToNat p)
  else .str (p.map lowerChar)

/-- Model of `natural_sort_key` (reassembleZip.py lines 5-8). -/
def natural_sort_key (s : String) : List NPiece :=
  (reSplitDigits s.data).map pieceOf

theorem lexLtBy_append_left {α : Type} (ltA : α → α → Bool) [BEq α] [LawfulBEq α] :
    ∀ (K l₁ l₂ : List α), lexLtBy ltA l₁ l₂ = true →
      lexLtBy ltA (K ++ l₁) (K ++ l₂) = true := by
  intro K
  induction K with
  | nil => intro l₁ l₂ h; exact h
  | cons a K' ih =>
    intro l₁ l₂ h
    simp only [List.cons_append, lexLtBy, Bool.or_eq_true, Bool.and_eq_true]
    exact Or.inr ⟨beq_self_eq_true a, ih l₁ l₂ h⟩

/-- Appending a larger-valued digit run to the same non-digit-terminated
stem produces a strictly larger natural-sort key. -/
theorem natKey_append_digits_lt (P ds ds' : List Char)
    (hP : P ≠ []) (hlast : P.getLast?.any (fun c => !c.isDigit) = true)
    (hds : ds ≠ []) (hall : ds.all Char.isDigit = true)
    (hds' : ds' ≠ []) (hall' : ds'.all Char.isDigit = true)
    (hv : digitsToNat ds < digitsToNat ds') :
    keyLt ((reSplitDigits (P ++ ds)).map pieceOf)
      ((reSplitDigits (P ++ ds')).map pieceOf) = true := by
  rw [reSplitDigits_append_digits P hP hlast ds hds hall,
    reSplitDigits_append_digits P hP hlast ds' hds' hall']
  rw [List.map_append, List.map_append]
  apply lexLtBy_append_left
  have h1 : pieceOf ds = .num (digitsToNat ds) := by simp [pieceOf, hds, hall]
  have h2 : pieceOf ds' = .num (digitsToNat ds') := by simp [pieceOf, hds', hall']
  simp only [List.map_cons, List.map_nil, h1, h2]
  simp [lexLtBy, pieceLt, hv]

/-!
The reassembler (reassembleZip.py).

A directory is modelled as a list of (filename, contents) pairs in
arbitrary listing order.  `Path().glob` yields entries in unspecified
order; `sorted(..., key=natural_sort_key)` is modelled by Mathlib's
(stable) insertion sort under the induced non-strict key order, which
agrees with Python's stable sort whenever the keys at issue are totally
ordered.
-/

/-- Strict natural-key order on directory entries. -/
def fileLt (f g : String × List Nat) : Prop :=
  keyLt (natural_sort_key f.1) (natural_sort_key g.1) = true

/-- Non-strict natural-key order on directory entries (`a` may stay before
`b` in a stable sort exactly when `not (key b < key a)`). -/
def fileLe (f g : String × List Nat) : Prop :=
  keyLe (natural_sort_key f.1) (natural_sort_key g.1) = true

instance : DecidableRel fileLt := fun f g =>
  inferInstanceAs (Decidable (keyLt (natural_sort_key f.1) (natural_sort_key g.1) = true))

instance : DecidableRel fileLe := fun f g =>
  inferInstanceAs (Decidable (keyLe (natural_sort_key f.1) (natural_sort_key g.1) = true))

theorem fileLe_iff (f g : String × List Nat) : fileLe f g ↔ ¬ fileLt g f := by
  unfold fileLe fileLt keyLe
  cases keyLt (natural_sort_key g.1) (natural_sort_key f.1) <;> simp

instance : IsTotal (String × List Nat) fileLe where
  total := by
    intro a b
    rcases h : keyLt (natural_sort_key b.1) (natural_sort_key a.1) with _ | _
    · exact Or.inl ((fileLe_iff a b).mpr (by unfold fileLt; simp [h]))
    · have := keyLt_asymm _ _ h
      exact Or.inr ((fileLe_iff b a).mpr (by unfold fileLt; simp [this]))

instance : IsTrans (String × List Nat) fileLe where
  trans := by
    intro a b c hab hbc
    rw [fileLe_iff] at hab hbc ⊢
    unfold fileLt at hab hbc ⊢
    intro hca
    rcases keyLt_tri (natural_sort_key a.1) (natural_sort_key b.1) with h | h | h
    · exact hbc (keyLt_trans _ _ _ hca h)
    · rw [h] at hca
      exact hbc hca
    · exact hab h

/-- Model of the filter implied by the glob pattern `*.*[0-9][0-9][0-9]`
(reassembleZip.py line 16): a full match requires the name to end in three
digit characters and to contain a literal dot somewhere before those last
three characters (`pathlib`'s glob does not treat dot-initial names
specially). -/
def globNumberedMatch (s : String) : Bool :=
  decide (3 ≤ s.data.length) &&
    (s.data.drop (s.data.length - 3)).all Char.isDigit &&
    decide ('.' ∈ s.data.take (s.data.length - 3))

/-- The two failure exits of `reassemble_files`: no numbered file found at
all (line 19), or none matching the typed base name (line 35).  In both
cases the function returns before the output file is opened or created. -/
inductive ReasmError
  | noSplitFiles
  | noMatch
deriving DecidableEq

/-- Model of `all_files` at reassembleZip.py line 16: the directory entries
matching the numbered-suffix glob, in natural-sort order. -/
def allFiles (dir : List (String × List Nat)) : List (String × List Nat) :=
  List.insertionSort fileLe (dir.filter (fun f => globNumberedMatch f.1))

/-- Model of `parts` at reassembleZip.py line 32: the candidates whose name starts
with the typed base name (`str(f).startswith(base_name)`), re-sorted in
natural-sort order. -/
def selectedParts (dir : List (String × List Nat)) (base_name : String) :
    List (String × List Nat) :=
  List.insertionSort fileLe
    ((allFiles dir).filter (fun f => base_name.data.isPrefixOf f.1.data))

/-- Model of `reassemble_files` (reassembleZip.py lines 10-47): the output
file's bytes are the concatenation of the selected parts' contents in
natural-sort order, or an error (and no output file) when no numbered
file, or no base-name match, is found. -/
def reassemble_files (dir : List (String × List Nat)) (base_name : String) :
    Except ReasmError (List Nat) :=
  if (allFiles dir).isEmpty then .error .noSplitFiles
  else if (selectedParts dir base_name).isEmpty then .error .noMatch
  else .ok ((selectedParts dir base_name).map (fun f => f.2)).flatten

/-- Non-strict natural-key order on bare filenames (used when comparing
how `sorted(..., key=natural_sort_key)` orders a list of names). -/
def nameLe (a b : String) : Prop :=
  keyLe (natural_sort_key a) (natural_sort_key b) = true

instance : DecidableRel nameLe := fun a b =>
  inferInstanceAs (Decidable (keyLe (natural_sort_key a) (natural_sort_key b) = true))

/-- Plain lexicographic (code-point) strict comparison of strings —
Python's `<` on `str`, the order natural sort is contrasted with. -/
def strLexLt (a b : String) : Bool := lexLtBy charLt a.data b.data

/-- Non-strict version of the plain lexicographic string order. -/
def strLexLe (a b : String) : Prop := strLexLt b a = false

instance : DecidableRel strLexLe := fun a b =>
  inferInstanceAs (Decidable (strLexLt b a = false))

/-- A list sorted under the non-strict key order that is a permutation of a
strictly increasing list is that list: sorting the parts of a split set
(whose keys are strictly increasing) recovers them in part order whatever
the directory listing order was. -/
theorem perm_sorted_eq : ∀ (B A : List (String × List Nat)), A.Perm B →
    A.Sorted fileLe → B.Pairwise fileLt → A = B := by
  intro B
  induction B with
  | nil =>
    intro A hp _ _
    have := hp.length_eq
    simpa using List.length_eq_zero.mp (by simpa using this)
  | cons b B' ih =>
    intro A hp hs hpw
    cases A with
    | nil =>
      have := hp.length_eq
      simp at this
    | cons a A' =>
      have hab : a = b := by
        by_contra hne
        have haB : a ∈ b :: B' := hp.mem_iff.mp (List.mem_cons_self a A')
        have haB' : a ∈ B' := by
          rcases List.mem_cons.mp haB with h | h
          · exact absurd h hne
          · exact h
        have hlt : fileLt b a := (List.pairwise_cons.mp hpw).1 a haB'
        have hbA : b ∈ a :: A' := hp.mem_iff.mpr (List.mem_cons_self b B')
        have hbA' : b ∈ A' := by
          rcases List.mem_cons.mp hbA with h | h
          · exact absurd h.symm hne
          · exact h
        have hle : fileLe a b := (List.pairwise_cons.mp hs).1 b hbA'
        exact (fileLe_iff a b).mp hle hlt
      subst hab
      have hp' : A'.Perm B' := hp.cons_inv
      rw [ih A' hp' (List.pairwise_cons.mp hs).2 (List.pairwise_cons.mp hpw).2]

theorem isPrefixOf_append (l t : List Char) : l.isPrefixOf (l ++ t) = true := by
  induction l with
  | nil => simp [List.isPrefixOf]
  | cons a as ih => simp [List.isPrefixOf]

theorem pairwise_fst_zip {α β : Type} (R : α → α → Prop) :
    ∀ (as : List α) (bs : List β), as.Pairwise R →
      (as.zip bs).Pairwise (fun p q => R p.1 q.1) := by
  intro as
  induction as with
  | nil => intro bs _; simp
  | cons a as' ih =>
    intro bs h
    cases bs with
    | nil => simp
    | cons b bs' =>
      rw [List.zip_cons_cons, List.pairwise_cons]
      constructor
      · rintro ⟨q1, q2⟩ hq
        exact (List.pairwise_cons.mp h).1 q1 (List.of_mem_zip hq).1
      · exact ih bs' (List.pairwise_cons.mp h).2

/-- The indices of `enum` are strictly increasing along the list. -/
theorem pairwise_enum_fst {α : Type} (l : List α) :
    l.enum.Pairwise (fun p q => p.1 < q.1) := by
  rw [List.enum_eq_zip_range]
  exact pairwise_fst_zip (fun a b => a < b) (List.range l.length) l
    (List.pairwise_lt_range l.length)

-- Facts about the names `<stem>.zip.<NNN>` given by the splitter to its
-- parts, as seen by the reassembler's glob filter, startswith filter and
-- natural sort.

theorem partName_data (stem : String) (k : Nat) :
    (stem ++ r".zip." ++ pad3 k).data =
      (stem.data ++ ['.', 'z', 'i', 'p', '.']) ++ (pad3 k).data := by
  rw [String.data_append, String.data_append]

theorem partName_keyLt (stem : String) (i j : Nat) (hij : i < j) :
    keyLt (natural_sort_key (stem ++ r".zip." ++ pad3 i))
      (natural_sort_key (stem ++ r".zip." ++ pad3 j)) = true := by
  unfold natural_sort_key
  rw [partName_data, partName_data]
  apply natKey_append_digits_lt
  · simp
  · rw [List.getLast?_append]
    have h5 : (['.', 'z', 'i', 'p', '.'] : List Char).getLast? = some '.' := by decide
    rw [h5]
    rfl
  · exact pad3_ne_nil i
  · exact pad3_all_digits i
  · exact pad3_ne_nil j
  · exact pad3_all_digits j
  · rw [digitsToNat_pad3, digitsToNat_pad3]
    exact hij

theorem partName_glob (stem : String) (k : Nat) :
    globNumberedMatch (stem ++ r".zip." ++ pad3 k) = true := by
  unfold globNumberedMatch
  rw [partName_data]
  have hlen : ((stem.data ++ ['.', 'z', 'i', 'p', '.']) ++ (pad3 k).data).length =
      (stem.data ++ ['.', 'z', 'i', 'p', '.']).length + (pad3 k).data.length :=
    List.length_append _ _
  have hp3 : 3 ≤ (pad3 k).data.length := pad3_length_ge k
  simp only [Bool.and_eq_true, decide_eq_true_eq]
  refine ⟨⟨by omega, ?_⟩, ?_⟩
  · have heq : ((stem.data ++ ['.', 'z', 'i', 'p', '.']) ++ (pad3 k).data).length - 3 =
        (stem.data ++ ['.', 'z', 'i', 'p', '.']).length + ((pad3 k).data.length - 3) := by
      omega
    rw [heq, List.drop_append]
    rw [List.all_eq_true]
    intro c hc
    exact List.all_eq_true.mp (pad3_all_digits k) c (List.mem_of_mem_drop hc)
  · have heq : ((stem.data ++ ['.', 'z', 'i', 'p', '.']) ++ (pad3 k).data).length - 3 =
        (stem.data ++ ['.', 'z', 'i', 'p', '.']).length + ((pad3 k).data.length - 3) := by
      omega
    rw [heq, List.take_append]
    refine List.mem_append.mpr (Or.inl (List.mem_append.mpr (Or.inr ?_)))
    decide

theorem partName_startswith (stem : String) (k : Nat) :
    (stem ++ r".zip").data.isPrefixOf (stem ++ r".zip." ++ pad3 k).data = true := by
  rw [partName_data]
  have h1 : (stem ++ r".zip").data = stem.data ++ ['.', 'z', 'i', 'p'] := by
    rw [String.data_append]
  have h2 : (stem.data ++ ['.', 'z', 'i', 'p', '.']) ++ (pad3 k).data =
      (stem.data ++ ['.', 'z', 'i', 'p']) ++ ('.' :: (pad3 k).data) := by
    simp
  rw [h1, h2, isPrefixOf_append]

-- Aggregate facts about the part list written by `split_zip_file` with an
-- integer part size.

/-- For a natural (hence `read`-accepted) part size the splitter returns
success and the enumerated, named chunks. -/
theorem split_zip_file_ofNat (stem : String) (S : Nat) (src : List Nat) :
    split_zip_file stem (.int (S : Int)) src =
      (true, (readChunks (S : Int) src).enum.map
        (fun p => (stem ++ r".zip." ++ pad3 (p.1 + 1), p.2))) := by
  simp only [split_zip_file]
  rw [if_neg (by omega : ¬ ((S : Int) < -1))]

/-- The written part list, for a natural part size. -/
theorem split_parts_eq (stem : String) (S : Nat) (src : List Nat) :
    (split_zip_file stem (.int (S : Int)) src).2 =
      (readChunks (S : Int) src).enum.map
        (fun p => (stem ++ r".zip." ++ pad3 (p.1 + 1), p.2)) := by
  rw [split_zip_file_ofNat]

theorem split_parts_pairwise (stem : String) (S : Nat) (F : List Nat) :
    (split_zip_file stem (.int (S : Int)) F).2.Pairwise fileLt := by
  rw [split_parts_eq, List.pairwise_map]
  refine (pairwise_enum_fst (readChunks (S : Int) F)).imp ?_
  intro p q hpq
  exact partName_keyLt stem (p.1 + 1) (q.1 + 1) (by omega)

theorem split_parts_glob (stem : String) (S : Nat) (F : List Nat) :
    ∀ p ∈ (split_zip_file stem (.int (S : Int)) F).2, globNumberedMatch p.1 = true := by
  intro p hp
  rw [split_parts_eq] at hp
  rcases List.mem_map.mp hp with ⟨q, _, hq⟩
  rw [← hq]
  exact partName_glob stem (q.1 + 1)

theorem split_parts_startswith (stem : String) (S : Nat) (F : List Nat) :
    ∀ p ∈ (split_zip_file stem (.int (S : Int)) F).2,
      (stem ++ r".zip").data.isPrefixOf p.1.data = true := by
  intro p hp
  rw [split_parts_eq] at hp
  rcases List.mem_map.mp hp with ⟨q, _, hq⟩
  rw [← hq]
  exact partName_startswith stem (q.1 + 1)

theorem split_parts_map_snd (stem : String) (S : Nat) (F : List Nat) :
    (split_zip_file stem (.int (S : Int)) F).2.map (fun f => f.2) =
      readChunks (S : Int) F := by
  rw [split_parts_eq, List.map_map]
  exact List.enum_map_snd (readChunks (S : Int) F)

theorem split_parts_ne_nil (stem : String) (S : Nat) (hS : 0 < S) (F : List Nat)
    (hF : F ≠ []) : (split_zip_file stem (.int (S : Int)) F).2 ≠ [] := by
  have hlen : (split_zip_file stem (.int (S : Int)) F).2.length =
      (readChunks (S : Int) F).length := by
    rw [split_parts_eq, List.length_map, List.enum_length]
  intro hnil
  rw [hnil] at hlen
  have hnn := readChunks_ne_nil S hS F hF
  rcases h : readChunks (S : Int) F with _ | ⟨c, cs⟩
  · exact absurd h hnn
  · rw [h] at hlen
    simp at hlen

/-- Splitting a non-empty file and reassembling from any listing order of
the written parts, with the parts' common base name as the prefix,
reproduces the file exactly. -/
theorem split_roundtrip (stem : String) (S : Nat) (hS : 0 < S) (F : List Nat)
    (hF : F ≠ []) (dir : List (String × List Nat))
    (hdir : dir.Perm (split_zip_file stem (.int (S : Int)) F).2) :
    reassemble_files dir (stem ++ r".zip") = .ok F := by
  have hglob := split_parts_glob stem S F
  have hfilter1 : (dir.filter (fun f => globNumberedMatch f.1)).Perm
      (split_zip_file stem (.int (S : Int)) F).2 := by
    have h := hdir.filter (fun f => globNumberedMatch f.1)
    rwa [List.filter_eq_self.mpr hglob] at h
  have hall : allFiles dir = (split_zip_file stem (.int (S : Int)) F).2 := by
    apply perm_sorted_eq
    · exact (List.perm_insertionSort fileLe _).trans hfilter1
    · exact List.sorted_insertionSort fileLe _
    · exact split_parts_pairwise stem S F
  have hne : (split_zip_file stem (.int (S : Int)) F).2 ≠ [] :=
    split_parts_ne_nil stem S hS F hF
  have hsel : selectedParts dir (stem ++ r".zip") =
      (split_zip_file stem (.int (S : Int)) F).2 := by
    unfold selectedParts
    rw [hall, List.filter_eq_self.mpr (split_parts_startswith stem S F)]
    apply perm_sorted_eq
    · exact List.perm_insertionSort fileLe _
    · exact List.sorted_insertionSort fileLe _
    · exact split_parts_pairwise stem S F
  unfold reassemble_files
  rw [hall, hsel, List.isEmpty_eq_false.mpr hne]
  simp only [Bool.false_eq_true, if_false]
  rw [split_parts_map_snd stem S F, readChunks_flatten S hS F]

/-!
The recompression loop of `resize_image` (optWebPImages.py lines 16-34).

The image encoder is abstracted as a function `sizeBytes` giving the byte
size of the encoding of the fixed input image at each quality level; the
pair returned is (the function's return value, the quality level of the
last `img.save` performed — i.e. of the encoded file left on disk, `none`
if no save happened).  The source compares `os.path.getsize(out)/1024 <=
target_size_kb`; for the file sizes representable here the float division
by 1024 is exact, so the comparison is modelled as
`sizeBytes q ≤ 1024 * targetKB`.
-/

def resizeLoop (sizeBytes : Nat → Nat) (targetKB : Nat) (quality : Nat)
    (lastWritten : Option Nat) : Bool × Option Nat :=
  if 10 ≤ quality then
    if sizeBytes quality ≤ 1024 * targetKB then (true, some quality)
    else resizeLoop sizeBytes targetKB (quality - 5) (some quality)
  else (false, lastWritten)
termination_by quality
decreasing_by omega

/-- Model of `resize_image`: `quality` starts at 90, `min_quality` is 10,
`step` is 5 (optWebPImages.py lines 16-18); each iteration saves, then
returns `True` if the saved file is small enough, else lowers the quality
by the step; when the loop exhausts, the function returns `False` and the
file saved by the last iteration stays on disk. -/
def resize_image (sizeBytes : Nat → Nat) (targetKB : Nat) : Bool × Option Nat :=
  resizeLoop sizeBytes targetKB 90 none

/-- The descending quality sequence the loop visits starting from `q`. -/
def qualSeq (q : Nat) : List Nat :=
  if 10 ≤ q then q :: qualSeq (q - 5) else []
termination_by q
decreasing_by omega

theorem resizeLoop_spec (sizeBytes : Nat → Nat) (targetKB : Nat) :
    ∀ (q : Nat) (last : Option Nat),
      resizeLoop sizeBytes targetKB q last =
        match (qualSeq q).find? (fun x => decide (sizeBytes x ≤ 1024 * targetKB)) with
        | some q' => (true, some q')
        | none => (false, (qualSeq q).foldl (fun _ x => some x) last) := by
  intro q
  induction q using Nat.strong_induction_on with
  | _ q ih =>
    intro last
    by_cases h10 : 10 ≤ q
    · rw [resizeLoop, qualSeq]
      simp only [h10, if_true]
      by_cases hc : sizeBytes q ≤ 1024 * targetKB
      · simp only [hc, if_true]
        rw [List.find?_cons_of_pos _ (by simp [hc])]
      · simp only [hc, if_false]
        rw [List.find?_cons_of_neg _ (by simp [hc]), List.foldl_cons]
        exact ih (q - 5) (by omega) (some q)
    · rw [resizeLoop, qualSeq]
      simp [h10]

theorem qualSeq_90 :
    qualSeq 90 = [90, 85, 80, 75, 70, 65, 60, 55, 50, 45, 40, 35, 30, 25, 20, 15, 10] := by
  simp [qualSeq]

-- Remaining helper facts for the claims section.

theorem chunksF_zero_size (fuel : Nat) (data : List Nat) : chunksF fuel 0 data = [] := by
  cases fuel <;> simp [chunksF]

theorem split_parts_length (stem : String) (S : Nat) (F : List Nat) :
    (split_zip_file stem (.int (S : Int)) F).2.length =
      (readChunks (S : Int) F).length := by
  rw [split_parts_eq, List.length_map, List.enum_length]

theorem split_parts_map_fst (stem : String) (S : Nat) (F : List Nat) :
    (split_zip_file stem (.int (S : Int)) F).2.map (fun f => f.1) =
      (List.range (readChunks (S : Int) F).length).map
        (fun k => stem ++ r".zip." ++ pad3 (k + 1)) := by
  rw [split_parts_eq, List.map_map, ← List.enum_map_fst (readChunks (S : Int) F),
    List.map_map]
  rfl

theorem split_parts_map_len (stem : String) (S : Nat) (hS : 0 < S) (F : List Nat) :
    (split_zip_file stem (.int (S : Int)) F).2.map (fun f => f.2.length) =
      (List.range (readChunks (S : Int) F).length).map (fun k => min S (F.length - S * k)) := by
  have h1 : (split_zip_file stem (.int (S : Int)) F).2.map (fun f => f.2.length) =
      ((split_zip_file stem (.int (S : Int)) F).2.map (fun f => f.2)).map List.length := by
    rw [List.map_map]
    rfl
  rw [h1, split_parts_map_snd, readChunks_map_length S hS F]

instance {e a : Type} [DecidableEq e] [DecidableEq a] : DecidableEq (Except e a) := by
  intro x y
  cases x with
  | error ex =>
    cases y with
    | error ey =>
      exact decidable_of_iff (ex = ey) ⟨fun h => by rw [h], fun h => by injection h⟩
    | ok vy => exact isFalse (fun h => Except.noConfusion h)
  | ok vx =>
    cases y with
    | error ey => exact isFalse (fun h => Except.noConfusion h)
    | ok vy =>
      exact decidable_of_iff (vx = vy) ⟨fun h => by rw [h], fun h => by injection h⟩

/-!
Claim theorems.
-/

/-- C1 (amended: the source file must be non-empty): for every non-empty
file `F`, every strictly positive integer maximum part size `S`, and any
listing order of the parts produced by `split_zip_file`, reassembling with
the parts' common base name as the prefix yields an output whose byte
content equals `F` exactly — whether `S` is smaller than, equal to, or
larger than the length of `F`.  The original claim quantified over every
file: it fails for the empty file, for which zero parts are written and
the reassembler reports an error instead of producing output. -/
theorem C1_roundtrip_amended (stem : String) (S : Nat) (hS : 0 < S)
    (F : List Nat) (hF : F ≠ []) (dir : List (String × List Nat))
    (hdir : dir.Perm (split_zip_file stem (.int (S : Int)) F).2) :
    reassemble_files dir (stem ++ r".zip") = .ok F :=
  split_roundtrip stem S hS F hF dir hdir

/-- C1 witness: a 3-byte file split at part size 2 reassembles to itself. -/
theorem C1_roundtrip_witness :
    reassemble_files (split_zip_file (r"x") (.int 2) [1, 2, 3]).2
      ((r"x") ++ r".zip") = .ok [1, 2, 3] :=
  C1_roundtrip_amended (r"x") 2 (by decide) [1, 2, 3] (by decide) _ (List.Perm.refl _)

/-- C1 counterexample: for the empty file the round-trip does not return
the file's (empty) content — the splitter writes zero parts and the
reassembler then fails with its no-split-files error, creating no output
file at all. -/
theorem C1_roundtrip_counterexample :
    (split_zip_file (r"x") (.int 1) ([] : List Nat)).2 = []
    ∧ reassemble_files (split_zip_file (r"x") (.int 1) ([] : List Nat)).2
        ((r"x") ++ r".zip") = .error .noSplitFiles
    ∧ reassemble_files (split_zip_file (r"x") (.int 1) ([] : List Nat)).2
        ((r"x") ++ r".zip") ≠ .ok ([] : List Nat) := by
  have he : reassemble_files (split_zip_file (r"x") (.int 1) ([] : List Nat)).2
      ((r"x") ++ r".zip") = .error .noSplitFiles := rfl
  refine ⟨rfl, he, ?_⟩
  rw [he]
  intro h
  exact Except.noConfusion h

/-- C2: splitting a file of length `L` at positive part size `S` produces
exactly `ceil(L/S)` parts, named contiguously `<stem>.zip.001, .002, ...`
with no gaps; part `k` (0-based) holds `min S (L - S*k)` bytes, so every
part except possibly the last holds exactly `S` bytes, no part is empty,
and when `S` divides `L` every part holds exactly `S` bytes (no trailing
zero-length part).  In particular `L = 2500000, S = 1000000` gives 3 parts
of sizes 1000000 / 1000000 / 500000. -/
theorem C2_sequence_contiguity (stem : String) (S : Nat) (hS : 0 < S) (F : List Nat) :
    (split_zip_file stem (.int (S : Int)) F).2.length = (F.length + S - 1) / S
    ∧ (split_zip_file stem (.int (S : Int)) F).2.map (fun f => f.1) =
        (List.range ((split_zip_file stem (.int (S : Int)) F).2.length)).map
          (fun k => stem ++ r".zip." ++ pad3 (k + 1))
    ∧ (split_zip_file stem (.int (S : Int)) F).2.map (fun f => f.2.length) =
        (List.range ((split_zip_file stem (.int (S : Int)) F).2.length)).map
          (fun k => min S (F.length - S * k))
    ∧ (∀ p ∈ (split_zip_file stem (.int (S : Int)) F).2, 0 < p.2.length)
    ∧ (∀ p ∈ (split_zip_file stem (.int (S : Int)) F).2.dropLast, p.2.length = S)
    ∧ (S ∣ F.length → ∀ p ∈ (split_zip_file stem (.int (S : Int)) F).2, p.2.length = S)
    ∧ ((2500000 + 1000000 - 1) / 1000000 = 3
        ∧ (List.range 3).map (fun k => min 1000000 (2500000 - 1000000 * k)) =
            [1000000, 1000000, 500000]) := by
  refine ⟨?_, ?_, ?_, ?_, ?_, ?_, by decide, by decide⟩
  · rw [split_parts_length, readChunks_length S hS F]
  · rw [split_parts_length, split_parts_map_fst]
  · rw [split_parts_length, split_parts_map_len stem S hS F]
  · intro p hp
    have hmem : p.2 ∈ (split_zip_file stem (.int (S : Int)) F).2.map (fun f => f.2) :=
      List.mem_map_of_mem (fun f => f.2) hp
    rw [split_parts_map_snd] at hmem
    exact readChunks_pos S hS F p.2 hmem
  · intro p hp
    have hmem : p.2 ∈ (split_zip_file stem (.int (S : Int)) F).2.dropLast.map (fun f => f.2) :=
      List.mem_map_of_mem (fun f => f.2) hp
    rw [List.map_dropLast, split_parts_map_snd] at hmem
    exact readChunks_dropLast S hS F p.2 hmem
  · intro hdvd p hp
    have hmem : p.2 ∈ (split_zip_file stem (.int (S : Int)) F).2.map (fun f => f.2) :=
      List.mem_map_of_mem (fun f => f.2) hp
    rw [split_parts_map_snd] at hmem
    exact readChunks_dvd S hS F hdvd p.2 hmem

/-- C2 witness: a 5-byte file at part size 2 gives ceil(5/2) = 3 parts
named .001/.002/.003 of sizes 2/2/1. -/
theorem C2_sequence_contiguity_witness :
    (split_zip_file (r"x") (.int 2) [1, 2, 3, 4, 5]).2.length = (5 + 2 - 1) / 2
    ∧ (split_zip_file (r"x") (.int 2) [1, 2, 3, 4, 5]).2.map (fun f => f.2.length) =
        (List.range ((split_zip_file (r"x") (.int 2) [1, 2, 3, 4, 5]).2.length)).map
          (fun k => min 2 (5 - 2 * k)) :=
  ⟨((C2_sequence_contiguity (r"x") 2 (by decide) [1, 2, 3, 4, 5]).1),
   ((C2_sequence_contiguity (r"x") 2 (by decide) [1, 2, 3, 4, 5]).2.2.1)⟩

/-- C3: sorting by `natural_sort_key` splits each name into alternating
digit / non-digit runs (digit runs numeric, other runs lowercased), so the
names f.9, f.10, f.2 sort as f.2, f.9, f.10; plain lexicographic
comparison instead puts f.10 before f.2 before f.9, and a lexicographic
sort of the same input yields that wrong order. -/
theorem C3_natural_sort_order :
    natural_sort_key (r"f.9") = [.str ['f', '.'], .num 9, .str []]
    ∧ natural_sort_key (r"f.10") = [.str ['f', '.'], .num 10, .str []]
    ∧ natural_sort_key (r"F.9") = natural_sort_key (r"f.9")
    ∧ List.insertionSort nameLe [r"f.9", r"f.10", r"f.2"] = [r"f.2", r"f.9", r"f.10"]
    ∧ strLexLt (r"f.10") (r"f.2") = true
    ∧ strLexLt (r"f.2") (r"f.9") = true
    ∧ List.insertionSort strLexLe [r"f.9", r"f.10", r"f.2"] = [r"f.10", r"f.2", r"f.9"] := by
  refine ⟨by decide, by decide, by decide, by decide, by decide, by decide, by decide⟩

/-- C5: a discovered candidate (a directory entry matching the numbered
glob) is included among the reassembled parts exactly when its name begins
with the typed base-name prefix; concretely, with parts a.zip.001,
a.zip.002 and ab.zip.001 on disk, reassembling with base name a.zip
concatenates only the two a.zip parts, excluding ab.zip.001. -/
theorem C5_prefix_filtering :
    (∀ (dir : List (String × List Nat)) (base : String) (f : String × List Nat),
      f ∈ selectedParts dir base ↔
        (f ∈ dir ∧ globNumberedMatch f.1 = true ∧ base.data.isPrefixOf f.1.data = true))
    ∧ reassemble_files
        [((r"a.zip.001"), [10]), ((r"a.zip.002"), [20]), ((r"ab.zip.001"), [30])]
        (r"a.zip") = .ok [10, 20] := by
  constructor
  · intro dir base f
    unfold selectedParts allFiles
    rw [(List.perm_insertionSort fileLe _).mem_iff, List.mem_filter,
      (List.perm_insertionSort fileLe _).mem_iff, List.mem_filter]
    tauto
  · decide

/-- C5 witness: a matching part is selected (its name starts with the
prefix), instantiating the membership characterisation. -/
theorem C5_prefix_filtering_witness :
    ((r"a.zip.001"), ([10] : List Nat)) ∈
      selectedParts [((r"a.zip.001"), [10])] (r"a.zip") :=
  (C5_prefix_filtering.1 [((r"a.zip.001"), [10])] (r"a.zip") ((r"a.zip.001"), [10])).mpr
    ⟨by decide, by decide, by decide⟩

/-- C6: when numbered candidate files exist but none of their names begins
with the user-supplied base-name prefix, the reassembler returns its
no-matching-parts error; in the model the error return happens before the
output file is opened or created, so nothing is written. -/
theorem C6_no_match_error (dir : List (String × List Nat)) (base : String)
    (h1 : allFiles dir ≠ [])
    (h2 : ∀ f ∈ dir, globNumberedMatch f.1 = true →
      base.data.isPrefixOf f.1.data = false) :
    reassemble_files dir base = .error .noMatch := by
  have hsel : selectedParts dir base = [] := by
    unfold selectedParts
    have hf : (allFiles dir).filter (fun f => base.data.isPrefixOf f.1.data) = [] := by
      rw [List.filter_eq_nil_iff]
      intro f hf
      have hmem : f ∈ dir.filter (fun g => globNumberedMatch g.1) :=
        (List.perm_insertionSort fileLe _).mem_iff.mp hf
      have hd := List.mem_filter.mp hmem
      simp [h2 f hd.1 hd.2]
    rw [hf]
    rfl
  unfold reassemble_files
  rw [hsel, List.isEmpty_eq_false.mpr h1]
  rfl

/-- C6 witness: one numbered part exists but the typed base name matches
nothing, so the reassembler reports the no-match error. -/
theorem C6_no_match_error_witness :
    reassemble_files [((r"a.zip.001"), [1])] (r"b") = .error .noMatch :=
  C6_no_match_error [((r"a.zip.001"), [1])] (r"b") (by decide) (by decide)

/-- C4: every part file is named `<stem>.zip.<NNN>` where `NNN` is the
1-based sequence number rendered as a zero-padded decimal of at least
three digits: the rendering is all digit characters, is at least 3 long,
parses back to the sequence number (no truncation), is exactly 3 digits up
to 999, and is the full unpadded decimal from 1000 on. -/
theorem C4_part_naming (stem : String) (S : Nat) (F : List Nat) (n : Nat) :
    (split_zip_file stem (.int (S : Int)) F).2.map (fun f => f.1) =
      (List.range ((split_zip_file stem (.int (S : Int)) F).2.length)).map
        (fun k => stem ++ r".zip." ++ pad3 (k + 1))
    ∧ (pad3 (n + 1)).data.all Char.isDigit = true
    ∧ 3 ≤ (pad3 (n + 1)).data.length
    ∧ digitsToNat (pad3 (n + 1)).data = n + 1
    ∧ (n + 1 ≤ 999 → (pad3 (n + 1)).data.length = 3)
    ∧ (1000 ≤ n + 1 → (pad3 (n + 1)).data = toDecimal (n + 1))
    ∧ pad3 1 = r"001" ∧ pad3 12 = r"012" ∧ pad3 999 = r"999" ∧ pad3 1000 = r"1000" := by
  refine ⟨?_, pad3_all_digits (n + 1), pad3_length_ge (n + 1), digitsToNat_pad3 (n + 1),
    ?_, ?_, by decide, by decide, by decide, by decide⟩
  · rw [split_parts_length, split_parts_map_fst]
  · intro hle
    have hlt : n + 1 < 10 ^ 3 := by norm_num; omega
    have := toDecimal_length_le 3 (n + 1) (by omega) hlt
    rw [pad3_length]
    omega
  · intro hge
    have hpow : 10 ^ 3 ≤ n + 1 := by norm_num; omega
    have hlen := toDecimal_length_ge 3 (n + 1) hpow
    rw [pad3_data]
    have h0 : 3 - (toDecimal (n + 1)).length = 0 := by omega
    rw [h0]
    rfl

/-- C4 witness: concrete instances of the padding contract. -/
theorem C4_part_naming_witness :
    (pad3 12).data.length = 3 ∧ (pad3 2000).data = toDecimal 2000 :=
  ⟨(C4_part_naming (r"x") 2 [1] 11).2.2.2.2.1 (by decide),
   (C4_part_naming (r"x") 2 [1] 1999).2.2.2.2.2.1 (by decide)⟩

/-- C7 counterexample: `split_zip_file` called with the non-positive
maximum part size 0 does not fail with a validation error — it succeeds
(returns `True`), writing zero part files, because the function performs
no size validation at all. -/
theorem C7_no_validation_counterexample :
    split_zip_file (r"a") (.int 0) [1, 2, 3] = (true, []) := by
  decide

/-- C7 (amended): `split_zip_file` itself performs no validation of the
maximum part size and never fails with a validation error: with size 0 it
returns success having written zero parts; with size -1 the buffered
`f.read(-1)` reads the whole file and it returns success with a single
part holding the entire file; with any integer size below -1 the first
`f.read` raises `ValueError`, which the generic handler turns into a
plain `False` return with no part written.  Strict positivity is enforced
only in `main`'s size prompt loop (splitZip.py lines 122-125), which
rejects every non-positive typed size before `split_zip_file` is
called. -/
theorem C7_size_validation_amended (stem : String) (F : List Nat) :
    split_zip_file stem (.int 0) F = (true, [])
    ∧ (F ≠ [] →
        split_zip_file stem (.int (-1)) F = (true, [(stem ++ r".zip." ++ pad3 1, F)]))
    ∧ (∀ i : Int, i < -1 → split_zip_file stem (.int i) F = (false, []))
    ∧ (∀ x : Rat, x ≤ 0 → acceptTypedSize x = none) := by
  refine ⟨?_, ?_, ?_, ?_⟩
  · have h0 : split_zip_file stem (.int 0) F =
        (true, (readChunks 0 F).enum.map
          (fun p => (stem ++ r".zip." ++ pad3 (p.1 + 1), p.2))) := by
      simp only [split_zip_file]
      rw [if_neg (by omega : ¬ ((0 : Int) < -1))]
    rw [h0, show readChunks 0 F = [] from by simp [readChunks, chunksF_zero_size]]
    rfl
  · intro hF
    have hm : split_zip_file stem (.int (-1)) F =
        (true, (readChunks (-1) F).enum.map
          (fun p => (stem ++ r".zip." ++ pad3 (p.1 + 1), p.2))) := by
      simp only [split_zip_file]
      rw [if_neg (by omega : ¬ ((-1 : Int) < -1))]
    have hr : readChunks (-1) F = [F] := by
      unfold readChunks
      rw [if_pos (by omega), if_neg (by simpa using hF)]
    rw [hm, hr]
    rfl
  · intro i hi
    simp only [split_zip_file]
    rw [if_pos hi]
  · intro x hx
    unfold acceptTypedSize
    rw [if_pos]
    exact mul_nonpos_iff.mpr (Or.inr ⟨hx, by norm_num⟩)

/-- C7 witness: size 0 succeeds with no parts, size -1 succeeds with the
whole file as one part, size -2 returns a plain failure (no validation
error path exists in the function), and the prompt loop rejects a typed
-1. -/
theorem C7_size_validation_witness :
    split_zip_file (r"a") (.int 0) [5] = (true, [])
    ∧ split_zip_file (r"a") (.int (-1)) [5] = (true, [((r"a") ++ r".zip." ++ pad3 1, [5])])
    ∧ split_zip_file (r"a") (.int (-2)) [5] = (false, [])
    ∧ acceptTypedSize (-1) = none :=
  ⟨(C7_size_validation_amended (r"a") [5]).1,
   (C7_size_validation_amended (r"a") [5]).2.1 (by decide),
   (C7_size_validation_amended (r"a") [5]).2.2.1 (-2) (by decide),
   (C7_size_validation_amended (r"a") [5]).2.2.2 (-1) (by norm_num)⟩

/-- C8: splitting a zero-byte source does not crash: for every integer
maximum part size the splitter terminates normally having written zero
part files, and for every size the buffered `f.read` accepts (that is,
from -1 up, in particular the default 1 GiB) it reports success. -/
theorem C8_zero_byte_split (stem : String) (i : Int) :
    (split_zip_file stem (.int i) []).2 = []
    ∧ (-1 ≤ i → split_zip_file stem (.int i) [] = (true, [])) := by
  constructor
  · simp only [split_zip_file]
    split
    · rfl
    · rw [readChunks_nil]
      rfl
  · intro hi
    simp only [split_zip_file]
    rw [if_neg (by omega), readChunks_nil]
    rfl

/-- C8 witness: the default 1 GiB size on an empty source returns success
with zero parts written. -/
theorem C8_zero_byte_split_witness :
    split_zip_file (r"x") (.int (1024 * 1024 * 1024)) [] = (true, []) :=
  (C8_zero_byte_split (r"x") (1024 * 1024 * 1024)).2 (by norm_num)

/-- C9: the recompression loop tries exactly the qualities
90, 85, ..., 15, 10 in order, returning success (with the file saved at
that quality) at the first whose encoded size is at or below the target;
if none qualifies it returns failure, and the file written by the last
attempt — at the floor quality 10 — remains on disk. -/
theorem C9_quality_descent (sizeBytes : Nat → Nat) (targetKB : Nat) :
    resize_image sizeBytes targetKB =
      match ([90, 85, 80, 75, 70, 65, 60, 55, 50, 45, 40, 35, 30, 25, 20, 15, 10].find?
          (fun q => decide (sizeBytes q ≤ 1024 * targetKB))) with
      | some q => (true, some q)
      | none => (false, some 10) := by
  unfold resize_image
  rw [resizeLoop_spec, qualSeq_90]
  cases hf : [90, 85, 80, 75, 70, 65, 60, 55, 50, 45, 40, 35, 30, 25, 20, 15, 10].find?
      (fun q => decide (sizeBytes q ≤ 1024 * targetKB)) with
  | none => rfl
  | some q => rfl

/-- C10: every size the user actually types at the splitter's prompt is
converted to a Python float (line 122), and `split_zip_file`'s chunked
`f.read` rejects a float size with a `TypeError`, so the split fails and
returns `False` with no part written, whatever value was typed; only the
default path (empty input, the integer 1 GiB) passes an int and can
succeed. -/
theorem C10_typed_size_fails (x : Rat) (stem : String) (F : List Nat) :
    split_zip_file stem (typedMaxSize x) F = (false, [])
    ∧ (split_zip_file stem defaultMaxSize F).1 = true := by
  exact ⟨rfl, rfl⟩
